import Mathlib

/-!
Verification of the addressutil repository's encoding/checksum core against
its natural-language specification.

The Go sources are shallowly embedded: Go byte slices become `List Nat`
(every element < 256 where it matters), Go `uint64` arithmetic becomes `Nat`
arithmetic (all values handled stay far below 2^64, so no wrap-around is
possible and no explicit modulus is needed), Go strings handled byte-wise
become `List Nat` of their bytes, and fallible Go functions return `Except`.
-/

/-! ## CashAddr polynomial checksum (`polyMod`, from
`src/util/bchutil/bchutil.go` and `src/unnamed/part_003`, identical copies) -/

/-- One iteration of the `polyMod` loop body, exactly as in the Go source:
`c0 := c >> 35`, `c = ((c & 0x07ffffffff) << 5) ^ d`, then the five
conditional generator XORs keyed on the low five bits of `c0`. -/
def polyModStep (c d : Nat) : Nat :=
  let c0 := c >>> 35
  let c1 := ((c &&& 0x07ffffffff) <<< 5) ^^^ d
  let c2 := if c0 &&& 0x01 > 0 then c1 ^^^ 0x98f2bc8e61 else c1
  let c3 := if c0 &&& 0x02 > 0 then c2 ^^^ 0x79b76d99e2 else c2
  let c4 := if c0 &&& 0x04 > 0 then c3 ^^^ 0xf33e5fb3c4 else c3
  let c5 := if c0 &&& 0x08 > 0 then c4 ^^^ 0xae2eabe2a8 else c4
  if c0 &&& 0x10 > 0 then c5 ^^^ 0x1e4f43e470 else c5

/-- `polyMod` from the Go source: fold the step over the input starting from
state 1, and XOR 1 into the final state. -/
def polyMod (v : List Nat) : Nat := (v.foldl polyModStep 1) ^^^ 1

/-- The state update exactly as the specification words it (claim C1):
`c = ((c << 5) | d) & 0x07FFFFFFFF`, i.e. shift first and mask the *result*
to 35 bits; generator XORs as in the source. This is the spec's formula,
kept separate so it can be compared against the code's `polyModStep`. -/
def polyModC1ClaimStep (c d : Nat) : Nat :=
  let c0 := c >>> 35
  let c1 := ((c <<< 5) ||| d) &&& 0x07ffffffff
  let c2 := if c0 &&& 0x01 > 0 then c1 ^^^ 0x98f2bc8e61 else c1
  let c3 := if c0 &&& 0x02 > 0 then c2 ^^^ 0x79b76d99e2 else c2
  let c4 := if c0 &&& 0x04 > 0 then c3 ^^^ 0xf33e5fb3c4 else c3
  let c5 := if c0 &&& 0x08 > 0 then c4 ^^^ 0xae2eabe2a8 else c4
  if c0 &&& 0x10 > 0 then c5 ^^^ 0x1e4f43e470 else c5

/-- The checksum routine claim C1 describes, word for word. -/
def polyModC1Claim (v : List Nat) : Nat := (v.foldl polyModC1ClaimStep 1) ^^^ 1

/-- The amended state update: mask the state to its low 35 bits *first*,
then shift left by 5 and merge `d` into the freed low bits (for `d < 32`
the merge is equivalently `|` or `^`), yielding a 40-bit state.
Generator XORs as before. -/
def polyModAmendedStep (c d : Nat) : Nat :=
  let c0 := c >>> 35
  let c1 := ((c &&& 0x07ffffffff) <<< 5) ||| d
  let c2 := if c0 &&& 0x01 > 0 then c1 ^^^ 0x98f2bc8e61 else c1
  let c3 := if c0 &&& 0x02 > 0 then c2 ^^^ 0x79b76d99e2 else c2
  let c4 := if c0 &&& 0x04 > 0 then c3 ^^^ 0xf33e5fb3c4 else c3
  let c5 := if c0 &&& 0x08 > 0 then c4 ^^^ 0xae2eabe2a8 else c4
  if c0 &&& 0x10 > 0 then c5 ^^^ 0x1e4f43e470 else c5

/-- The amended description of `polyMod` (claim C1 amended). -/
def polyModAmended (v : List Nat) : Nat := (v.foldl polyModAmendedStep 1) ^^^ 1

lemma shiftLeft_five_lor_eq_xor (a d : Nat) (hd : d < 32) :
    (a <<< 5) ||| d = (a <<< 5) ^^^ d := by
  apply Nat.eq_of_testBit_eq
  intro i
  rcases Nat.lt_or_ge i 5 with h | h
  · have h5 : ¬ (5 ≤ i) := by omega
    simp [Nat.testBit_lor, Nat.testBit_xor, Nat.testBit_shiftLeft, h5]
  · have hdi : d.testBit i = false := by
      apply Nat.testBit_lt_two_pow
      calc d < 32 := hd
        _ = 2 ^ 5 := by norm_num
        _ ≤ 2 ^ i := Nat.pow_le_pow_right (by norm_num) h
    simp [Nat.testBit_lor, Nat.testBit_xor, hdi]

lemma polyModAmendedStep_eq (c d : Nat) (hd : d < 32) :
    polyModAmendedStep c d = polyModStep c d := by
  unfold polyModAmendedStep polyModStep
  rw [shiftLeft_five_lor_eq_xor _ _ hd]

/-- C1 counterexample: on seven zero values (each `< 32`), the routine the
claim describes and the code's `polyMod` disagree. The spec's formula masks
the state to 35 bits after the shift, so bit 35 is never visible to the
next iteration's `c0`, whereas the code masks first and shifts into a
40-bit state. -/
theorem polyMod_c1_counterexample :
    (∀ d ∈ [0, 0, 0, 0, 0, 0, 0], d < 32) ∧
      polyModC1Claim [0, 0, 0, 0, 0, 0, 0] ≠ polyMod [0, 0, 0, 0, 0, 0, 0] := by
  constructor
  · decide
  · decide

/-- C1 amended: for inputs whose values are all below 32, `polyMod`
maintains its 40-bit state by masking to the low 35 bits first and then
shifting in `d` (`c = ((c & 0x07FFFFFFFF) << 5) | d`), applying the five
generator XORs keyed on the pre-update top bits, and returning the final
state XOR 1. -/
theorem polyMod_c1_amended (v : List Nat) (hv : ∀ d ∈ v, d < 32) :
    polyModAmended v = polyMod v := by
  unfold polyModAmended polyMod
  have : v.foldl polyModAmendedStep 1 = v.foldl polyModStep 1 := by
    apply List.foldl_ext
    intro a x hx
    exact polyModAmendedStep_eq a x (hv x hx)
  rw [this]

/-- Witness for the amended C1 theorem at a concrete input. -/
theorem polyMod_c1_amended_witness :
    (∀ d ∈ [3, 31, 0, 7], d < 32) ∧
      polyModAmended [3, 31, 0, 7] = polyMod [3, 31, 0, 7] :=
  ⟨by decide, polyMod_c1_amended [3, 31, 0, 7] (by decide)⟩

/-! ## CashAddr checksum creation and verification
(`expandPrefix`, `createChecksum`, `verifyChecksum` from the Go sources;
`expandPrefix` is embedded under the name `expandPfx`). -/

/-- Go `expandPrefix`: low five bits of every prefix byte, then a zero. -/
def expandPfx (pre : List Nat) : List Nat := pre.map (fun b => b &&& 0x1f) ++ [0]

/-- Go `verifyChecksum` from `src/util/bchutil/bchutil.go`. -/
def verifyChecksum (pre payload : List Nat) : Bool :=
  polyMod (expandPfx pre ++ payload) == 0

/-- Go `createChecksum` from `src/unnamed/part_003`: polyMod over the
expanded prefix, the payload and eight zero groups, re-expressed as eight
5-bit groups (most significant first). -/
def createChecksum (pre payload : List Nat) : List Nat :=
  let mod := polyMod (expandPfx pre ++ payload ++ List.replicate 8 0)
  (List.range 8).map (fun i => (mod >>> (5 * (7 - i))) &&& 0x1f)

/-- The fold underlying `polyMod`, exposed for reasoning. -/
def polyModRun (c : Nat) (ds : List Nat) : Nat := ds.foldl polyModStep c

lemma polyMod_eq_run (v : List Nat) : polyMod v = polyModRun 1 v ^^^ 1 := rfl

lemma polyModRun_append (c : Nat) (l₁ l₂ : List Nat) :
    polyModRun c (l₁ ++ l₂) = polyModRun (polyModRun c l₁) l₂ :=
  List.foldl_append ..

lemma polyModRun_cons (c d : Nat) (ds : List Nat) :
    polyModRun c (d :: ds) = polyModRun (polyModStep c d) ds := rfl

lemma xor_left_comm (a b c : Nat) : a ^^^ (b ^^^ c) = b ^^^ (a ^^^ c) := by
  rw [← Nat.xor_assoc, Nat.xor_comm a b, Nat.xor_assoc]

/-- The input value enters the state purely by XOR. -/
lemma polyModStep_xor_d (c d : Nat) : polyModStep c d = polyModStep c 0 ^^^ d := by
  simp only [polyModStep, Nat.xor_zero]
  split_ifs <;>
    simp [Nat.xor_assoc, Nat.xor_comm, xor_left_comm]

lemma xor_shiftLeft_distrib (x y n : Nat) :
    (x ^^^ y) <<< n = (x <<< n) ^^^ (y <<< n) := by
  apply Nat.eq_of_testBit_eq
  intro j
  simp only [Nat.testBit_shiftLeft, Nat.testBit_xor]
  cases h : decide (n ≤ j) <;> simp

lemma xor_shiftRight_distrib (x y n : Nat) :
    (x ^^^ y) >>> n = (x >>> n) ^^^ (y >>> n) := by
  apply Nat.eq_of_testBit_eq
  intro j
  simp [Nat.testBit_shiftRight, Nat.testBit_xor]

lemma shiftRight_eq_zero (x n : Nat) (h : x < 2 ^ n) : x >>> n = 0 := by
  rw [Nat.shiftRight_eq_div_pow]
  exact Nat.div_eq_of_lt h

/-- XOR-ing a 35-bit-bounded value into the state shifts it by five bits
through one `polyMod` step. -/
lemma polyModStep_xor_small (c x d : Nat) (hx : x < 2 ^ 35) :
    polyModStep (c ^^^ x) d = polyModStep c d ^^^ (x <<< 5) := by
  have hM : (0x07ffffffff : Nat) = 2 ^ 35 - 1 := by norm_num
  have h35 : (c ^^^ x) >>> 35 = c >>> 35 := by
    rw [xor_shiftRight_distrib, shiftRight_eq_zero x 35 hx, Nat.xor_zero]
  have hand : (c ^^^ x) &&& 0x07ffffffff = (c &&& 0x07ffffffff) ^^^ x := by
    rw [Nat.and_xor_distrib_right, hM, Nat.and_pow_two_sub_one_of_lt_two_pow hx]
  simp only [polyModStep, h35, hand, xor_shiftLeft_distrib]
  split_ifs <;>
    simp [Nat.xor_assoc, Nat.xor_comm, xor_left_comm]

/-- The `polyMod` state stays below `2 ^ 40` whenever the inputs do. -/
lemma polyModStep_lt (c d : Nat) (hd : d < 2 ^ 40) : polyModStep c d < 2 ^ 40 := by
  have hbase : (c &&& 0x07ffffffff) <<< 5 < 2 ^ 40 := by
    rw [Nat.shiftLeft_eq]
    have h1 : c &&& 0x07ffffffff ≤ 0x07ffffffff := Nat.and_le_right
    have h2 : (c &&& 0x07ffffffff) * 2 ^ 5 ≤ 0x07ffffffff * 2 ^ 5 :=
      Nat.mul_le_mul_right _ h1
    calc (c &&& 0x07ffffffff) * 2 ^ 5 ≤ 0x07ffffffff * 2 ^ 5 := h2
      _ < 2 ^ 40 := by norm_num
  simp only [polyModStep]
  split_ifs <;>
    · repeat' apply Nat.xor_lt_two_pow
      all_goals first | exact hbase | exact hd | norm_num

lemma polyModRun_lt (ds : List Nat) : ∀ c, c < 2 ^ 40 → (∀ d ∈ ds, d < 2 ^ 40) →
    polyModRun c ds < 2 ^ 40 := by
  induction ds with
  | nil => intro c hc _; exact hc
  | cons d ds ih =>
      intro c _ hds
      rw [polyModRun_cons]
      exact ih _ (polyModStep_lt c d (hds d (by simp))) fun x hx => hds x (by simp [hx])

/-- Window extraction commutes with truncation: a `t`-bit window wholly
inside the low `m` bits reads the same through `x % 2 ^ m` as through `x`. -/
lemma mod_shiftRight_and (x m s t : Nat) (h : s + t ≤ m) :
    ((x % 2 ^ m) >>> s) &&& (2 ^ t - 1) = (x >>> s) &&& (2 ^ t - 1) := by
  apply Nat.eq_of_testBit_eq
  intro j
  simp only [Nat.testBit_and, Nat.testBit_shiftRight, Nat.testBit_mod_two_pow,
    Nat.testBit_two_pow_sub_one]
  by_cases hj : j < t
  · have : s + j < m := by omega
    simp [this, hj]
  · simp [hj]

/-- Recomposition: low bits XOR shifted high bits give back the value. -/
lemma mod_xor_shiftRight_shiftLeft (v m : Nat) :
    (v % 2 ^ m) ^^^ ((v >>> m) <<< m) = v := by
  apply Nat.eq_of_testBit_eq
  intro j
  simp only [Nat.testBit_xor, Nat.testBit_mod_two_pow, Nat.testBit_shiftLeft,
    Nat.testBit_shiftRight]
  by_cases hj : j < m
  · have h1 : ¬ (m ≤ j) := by omega
    simp [hj, h1]
  · have h1 : m ≤ j := by omega
    have h2 : m + (j - m) = j := by omega
    simp [hj, h1, h2]

/-- XOR-ing a suitably bounded value into the state shifts it along the
whole rest of the run. -/
lemma polyModRun_xor (ds : List Nat) : ∀ c x, 5 * ds.length ≤ 40 →
    x < 2 ^ (40 - 5 * ds.length) →
    polyModRun (c ^^^ x) ds = polyModRun c ds ^^^ (x <<< (5 * ds.length)) := by
  induction ds with
  | nil => intro c x _ _; simp [polyModRun]
  | cons d ds ih =>
      intro c x h40 hx
      have hlen : (d :: ds).length = ds.length + 1 := rfl
      have h40' : 5 * ds.length ≤ 40 := by rw [hlen] at h40; omega
      have hx35 : x < 2 ^ 35 := by
        apply lt_of_lt_of_le hx
        apply Nat.pow_le_pow_right (by norm_num)
        omega
      rw [polyModRun_cons, polyModRun_cons, polyModStep_xor_small c x d hx35]
      have hx' : x <<< 5 < 2 ^ (40 - 5 * ds.length) := by
        rw [Nat.shiftLeft_eq]
        have he : 40 - 5 * (d :: ds).length + 5 = 40 - 5 * ds.length := by
          rw [hlen]; omega
        calc x * 2 ^ 5 < 2 ^ (40 - 5 * (d :: ds).length) * 2 ^ 5 :=
              Nat.mul_lt_mul_of_lt_of_le hx (Nat.le_refl _) (by norm_num)
          _ = 2 ^ (40 - 5 * ds.length) := by rw [← Nat.pow_add, he]
      rw [ih (polyModStep c d) (x <<< 5) h40' hx']
      rw [← Nat.shiftLeft_add]
      congr 2
      rw [hlen]; ring

/-- The trailing checksum-group expansion of a 40-bit value, generalized
over the group count (`createChecksum` uses `k = 8`). -/
def checksumGroups (mod k : Nat) : List Nat :=
  (List.range k).map (fun i => (mod >>> (5 * (k - 1 - i))) &&& 0x1f)

lemma createChecksum_eq_groups (pre payload : List Nat) :
    createChecksum pre payload =
      checksumGroups (polyMod (expandPfx pre ++ payload ++ List.replicate 8 0)) 8 := by
  unfold createChecksum checksumGroups
  apply List.map_congr_left
  intro i hi
  have : (8 : Nat) - 1 - i = 7 - i := by omega
  rw [this]

lemma checksumGroups_length (mod k : Nat) : (checksumGroups mod k).length = k := by
  simp [checksumGroups]

lemma checksumGroups_succ (v k : Nat) :
    checksumGroups v (k + 1) =
      ((v >>> (5 * k)) &&& 0x1f) :: checksumGroups (v % 2 ^ (5 * k)) k := by
  unfold checksumGroups
  rw [List.range_succ_eq_map, List.map_cons, List.map_map]
  congr 1
  apply List.map_congr_left
  intro i hi
  have hik : i < k := List.mem_range.mp hi
  have h1 : k + 1 - 1 - (i + 1) = k - 1 - i := by omega
  have h2 : (0x1f : Nat) = 2 ^ 5 - 1 := by norm_num
  have h3 : 5 * (k - 1 - i) + 5 ≤ 5 * k := by omega
  show (v >>> (5 * (k + 1 - 1 - (i + 1)))) &&& 0x1f =
    ((v % 2 ^ (5 * k)) >>> (5 * (k - 1 - i))) &&& 0x1f
  rw [h1, h2, mod_shiftRight_and _ _ _ _ h3]

/-- Processing the 5-bit groups of a 40-bit value is processing zeros and
XOR-ing the value into the final state. -/
lemma polyModRun_groups (k : Nat) (hk : k ≤ 8) : ∀ c v, v < 2 ^ (5 * k) →
    polyModRun c (checksumGroups v k) =
      polyModRun c (List.replicate k 0) ^^^ v := by
  induction k with
  | zero =>
      intro c v hv
      have : v = 0 := by omega
      simp [this, checksumGroups, polyModRun]
  | succ k ih =>
      intro c v hv
      have hk' : k ≤ 8 := by omega
      rw [checksumGroups_succ, polyModRun_cons,
        polyModStep_xor_d c ((v >>> (5 * k)) &&& 0x1f)]
      have hg : (v >>> (5 * k)) &&& 0x1f < 2 ^ (40 - 5 * k) := by
        calc (v >>> (5 * k)) &&& 0x1f ≤ 0x1f := Nat.and_le_right
          _ < 2 ^ 5 := by norm_num
          _ ≤ 2 ^ (40 - 5 * k) := Nat.pow_le_pow_right (by norm_num) (by omega)
      have h40 : 5 * (checksumGroups (v % 2 ^ (5 * k)) k).length ≤ 40 := by
        rw [checksumGroups_length]; omega
      rw [polyModRun_xor _ _ _ h40 (by rw [checksumGroups_length]; exact hg)]
      rw [ih hk' (polyModStep c 0) (v % 2 ^ (5 * k))
        (Nat.mod_lt _ (Nat.two_pow_pos _))]
      rw [List.replicate_succ, polyModRun_cons, polyModStep_xor_d c 0, Nat.xor_zero]
      rw [checksumGroups_length, Nat.xor_assoc]
      congr 1
      have hvh : v >>> (5 * k) < 2 ^ 5 := by
        rw [Nat.shiftRight_eq_div_pow]
        apply Nat.div_lt_of_lt_mul
        rw [← Nat.pow_add]
        have : 5 * k + 5 = 5 * (k + 1) := by ring
        rw [this]
        exact hv
      have h5 : (0x1f : Nat) = 2 ^ 5 - 1 := by norm_num
      rw [h5, Nat.and_pow_two_sub_one_of_lt_two_pow hvh]
      exact mod_xor_shiftRight_shiftLeft v (5 * k)

/-- Appending the eight checksum groups of `polyMod (m ++ zeros)` to `m`
drives `polyMod` to 0. -/
lemma polyMod_append_groups (m : List Nat) (hmem : ∀ d ∈ m, d < 2 ^ 40) :
    polyMod (m ++ checksumGroups (polyMod (m ++ List.replicate 8 0)) 8) = 0 := by
  have hmem' : ∀ d ∈ m ++ List.replicate 8 0, d < 2 ^ 40 := by
    intro d hd
    rcases List.mem_append.mp hd with h1 | h1
    · exact hmem d h1
    · have := List.eq_of_mem_replicate h1
      subst this
      exact Nat.two_pow_pos 40
  have hX : polyModRun 1 (m ++ List.replicate 8 0) < 2 ^ 40 :=
    polyModRun_lt _ 1 (by norm_num) hmem'
  have hmodlt : polyMod (m ++ List.replicate 8 0) < 2 ^ (5 * 8) := by
    have : (5 : Nat) * 8 = 40 := by norm_num
    rw [this, polyMod_eq_run]
    exact Nat.xor_lt_two_pow hX (by norm_num)
  rw [polyMod_eq_run, polyModRun_append,
    polyModRun_groups 8 (by norm_num) _ _ hmodlt, ← polyModRun_append,
    polyMod_eq_run (m ++ List.replicate 8 0), ← Nat.xor_assoc, Nat.xor_self,
    Nat.zero_xor, Nat.xor_self]

/-- C3: verifying a payload with its freshly computed checksum appended
succeeds: `polyMod` over the expanded prefix, the payload and the eight
checksum groups is 0, so `verifyChecksum` returns `true`. -/
theorem verify_createChecksum (pre payload : List Nat)
    (h : ∀ d ∈ payload, d < 32) :
    verifyChecksum pre (payload ++ createChecksum pre payload) = true := by
  unfold verifyChecksum
  rw [createChecksum_eq_groups, ← List.append_assoc]
  have hmem : ∀ d ∈ expandPfx pre ++ payload, d < 2 ^ 40 := by
    intro d hd
    rcases List.mem_append.mp hd with h1 | h1
    · unfold expandPfx at h1
      rcases List.mem_append.mp h1 with h2 | h2
      · obtain ⟨b, _, rfl⟩ := List.mem_map.mp h2
        calc b &&& 0x1f ≤ 0x1f := Nat.and_le_right
          _ < 2 ^ 40 := by norm_num
      · have : d = 0 := by simpa using h2
        subst this
        exact Nat.two_pow_pos 40
    · calc d < 32 := h d h1
        _ < 2 ^ 40 := by norm_num
  rw [polyMod_append_groups (expandPfx pre ++ payload) hmem]
  rfl

/-- Witness for C3 at a concrete prefix and payload. -/
theorem verify_createChecksum_witness :
    (∀ d ∈ [0, 31, 7], d < 32) ∧
      verifyChecksum [98, 99] ([0, 31, 7] ++ createChecksum [98, 99] [0, 31, 7]) = true :=
  ⟨by decide, verify_createChecksum [98, 99] [0, 31, 7] (by decide)⟩

/-! ## Bit-width repacking (`convertBits` from `src/util/bchutil/bchutil.go`
and `src/unnamed/part_003`, identical copies).

The Go loop keeps an accumulator `acc`, a pending-bit count `bits` and an
output slice `ret`; the inner `for bits >= tobits` loop is embedded as the
recursive `emitLoop` (the Go loop diverges for `tobits = 0`, so `emitLoop`
guards on `0 < toBits`; all claims restrict the widths to `1..8`). -/

inductive ConvErr where
  | encodingPadding
deriving DecidableEq

structure ConvState where
  acc : Nat
  bits : Nat
  ret : List Nat
deriving DecidableEq

/-- The inner `for bits >= tobits` loop: emits `(acc >> bits') & maxv` after
each decrement `bits' = bits - tobits`, returning the emitted groups in
order together with the final pending-bit count. -/
def emitLoop (toBits maxv acc bits : Nat) : List Nat × Nat :=
  if _h : 0 < toBits ∧ toBits ≤ bits then
    let rest := emitLoop toBits maxv acc (bits - toBits)
    (((acc >>> (bits - toBits)) &&& maxv) :: rest.1, rest.2)
  else ([], bits)
termination_by bits
decreasing_by omega

/-- One iteration of the outer `for _, value := range uintArr` loop. -/
def convertStep (fromBits toBits maxv maxAcc : Nat) (s : ConvState) (value : Nat) :
    ConvState :=
  let acc := ((s.acc <<< fromBits) ||| value) &&& maxAcc
  let bits := s.bits + fromBits
  let e := emitLoop toBits maxv acc bits
  ⟨acc, e.2, s.ret ++ e.1⟩

/-- Go `convertBits`: general power-of-2 base conversion with the padding
checks of the source (the final `byte(i)` casts are no-ops because every
emitted group is masked with `maxv ≤ 255`). -/
def convertBits (data : List Nat) (fromBits toBits : Nat) (pad : Bool) :
    Except ConvErr (List Nat) :=
  let maxv := (1 <<< toBits) - 1
  let maxAcc := (1 <<< (fromBits + toBits - 1)) - 1
  let s := data.foldl (convertStep fromBits toBits maxv maxAcc) ⟨0, 0, []⟩
  if pad then
    if s.bits > 0 then .ok (s.ret ++ [(s.acc <<< (toBits - s.bits)) &&& maxv])
    else .ok s.ret
  else if fromBits ≤ s.bits ∨ ((s.acc <<< (toBits - s.bits)) &&& maxv) ≠ 0 then
    .error ConvErr.encodingPadding
  else .ok s.ret

/-- The input interpreted as a big-endian stream of `f`-bit values. -/
def streamVal (f : Nat) (data : List Nat) : Nat :=
  data.foldl (fun n v => n * 2 ^ f + v) 0

/-- The full `t`-bit groups of the length-`L` bit stream with value `N`,
most significant first. -/
def streamGroups (t maxv N L : Nat) : List Nat :=
  (List.range (L / t)).map (fun j => (N >>> (L - t * (j + 1))) &&& maxv)

lemma streamVal_append (f : Nat) (xs : List Nat) (x : Nat) :
    streamVal f (xs ++ [x]) = streamVal f xs * 2 ^ f + x := by
  unfold streamVal
  rw [List.foldl_append]
  rfl

lemma streamVal_lt (f : Nat) (data : List Nat) (hd : ∀ v ∈ data, v < 2 ^ f) :
    streamVal f data < 2 ^ (f * data.length) := by
  induction data using List.reverseRecOn with
  | nil => simp [streamVal]
  | append_singleton xs x ih =>
      rw [streamVal_append]
      have h1 : streamVal f xs < 2 ^ (f * xs.length) :=
        ih fun v hv => hd v (by simp [hv])
      have h2 : x < 2 ^ f := hd x (by simp)
      have h3 : streamVal f xs * 2 ^ f + x < (2 ^ (f * xs.length)) * 2 ^ f := by
        calc streamVal f xs * 2 ^ f + x
            ≤ (2 ^ (f * xs.length) - 1) * 2 ^ f + x := by
              have := Nat.mul_le_mul_right (2 ^ f) (by omega : streamVal f xs ≤ 2 ^ (f * xs.length) - 1)
              omega
          _ < (2 ^ (f * xs.length) - 1) * 2 ^ f + 2 ^ f := by omega
          _ = (2 ^ (f * xs.length) - 1 + 1) * 2 ^ f := by ring
          _ = 2 ^ (f * xs.length) * 2 ^ f := by
              congr 1
              have : (0:Nat) < 2 ^ (f * xs.length) := Nat.two_pow_pos _
              omega
      calc streamVal f xs * 2 ^ f + x < 2 ^ (f * xs.length) * 2 ^ f := h3
        _ = 2 ^ (f * (xs ++ [x]).length) := by
            rw [← Nat.pow_add]
            congr 1
            simp
            ring

/-- Characterization of `emitLoop` for positive `toBits`. -/
lemma emitLoop_spec (t maxv acc : Nat) (ht : 0 < t) : ∀ bits,
    emitLoop t maxv acc bits =
      ((List.range (bits / t)).map (fun i => (acc >>> (bits - t * (i + 1))) &&& maxv),
        bits % t) := by
  intro bits
  induction bits using Nat.strong_induction_on with
  | _ bits ih =>
      rw [emitLoop]
      by_cases hb : t ≤ bits
      · have hcond : 0 < t ∧ t ≤ bits := ⟨ht, hb⟩
        rw [dif_pos hcond]
        rw [ih (bits - t) (by omega)]
        have hdiv : bits / t = (bits - t) / t + 1 := by
          rw [Nat.div_eq_sub_div ht hb]
        have hmod : bits % t = (bits - t) % t := by
          conv_lhs => rw [← Nat.sub_add_cancel hb]
          rw [Nat.add_mod_right]
        rw [hdiv, hmod]
        simp only [List.range_succ_eq_map, List.map_cons, List.map_map]
        rw [Prod.mk.injEq]
        refine ⟨?_, rfl⟩
        congr 1
        · congr 2
          omega
        · apply List.map_congr_left
          intro i hi
          show (acc >>> (bits - t - t * (i + 1))) &&& maxv =
            (acc >>> (bits - t * (i + 1 + 1))) &&& maxv
          congr 2
          rw [Nat.sub_sub]
          congr 1
          ring
      · have hcond : ¬ (0 < t ∧ t ≤ bits) := by omega
        rw [dif_neg hcond]
        have h1 : bits / t = 0 := Nat.div_eq_of_lt (by omega)
        have h2 : bits % t = bits := Nat.mod_eq_of_lt (by omega)
        rw [h1, h2]
        rfl

lemma shiftRight_mul_add (Nv x f s : Nat) (hx : x < 2 ^ f) :
    (Nv * 2 ^ f + x) >>> (s + f) = Nv >>> s := by
  rw [Nat.shiftRight_eq_div_pow, Nat.shiftRight_eq_div_pow, Nat.pow_add,
    Nat.mul_comm (2 ^ s) (2 ^ f), ← Nat.div_div_eq_div_mul]
  congr 1
  rw [Nat.mul_comm Nv (2 ^ f), Nat.mul_add_div (Nat.two_pow_pos f),
    Nat.div_eq_of_lt hx, Nat.add_zero]

/-- Loop invariant of `convertBits`: after the whole fold, `acc` holds the
low `fromBits + toBits - 1` bits of the input bit stream, `bits` is the
stream length modulo `toBits`, and `ret` lists the full `toBits`-wide
groups of the stream. -/
lemma convert_fold_inv (f t : Nat) (hf : 0 < f) (ht : 0 < t) (data : List Nat)
    (hd : ∀ v ∈ data, v < 2 ^ f) :
    data.foldl (convertStep f t (2 ^ t - 1) (2 ^ (f + t - 1) - 1)) ⟨0, 0, []⟩ =
      ⟨streamVal f data % 2 ^ (f + t - 1), (f * data.length) % t,
        streamGroups t (2 ^ t - 1) (streamVal f data) (f * data.length)⟩ := by
  induction data using List.reverseRecOn with
  | nil => simp [streamVal, streamGroups]
  | append_singleton xs x ih =>
      have hd' : ∀ v ∈ xs, v < 2 ^ f := fun v hv => hd v (by simp [hv])
      have hx : x < 2 ^ f := hd x (by simp)
      rw [List.foldl_append, ih hd', List.foldl_cons, List.foldl_nil]
      have hN' : streamVal f (xs ++ [x]) = streamVal f xs * 2 ^ f + x :=
        streamVal_append f xs x
      have hlen : (xs ++ [x]).length = xs.length + 1 := by simp
      have hL' : f * (xs ++ [x]).length = f * xs.length + f := by
        rw [hlen]; ring
      set Nv := streamVal f xs with hNv
      set L := f * xs.length with hLdef
      unfold convertStep
      have hacc : (((Nv % 2 ^ (f + t - 1)) <<< f) ||| x) &&& (2 ^ (f + t - 1) - 1) =
          streamVal f (xs ++ [x]) % 2 ^ (f + t - 1) := by
        rw [Nat.shiftLeft_eq, Nat.mul_comm (Nv % 2 ^ (f + t - 1)) (2 ^ f),
          ← Nat.mul_add_lt_is_or hx, Nat.and_pow_two_sub_one_eq_mod, hN',
          Nat.mul_comm (2 ^ f) (Nv % 2 ^ (f + t - 1))]
        exact ((Nat.mod_modEq Nv (2 ^ (f + t - 1))).mul_right (2 ^ f)).add_right x
      simp only [hacc]
      rw [emitLoop_spec t (2 ^ t - 1) _ ht (L % t + f)]
      have hbits : (L % t + f) % t = (f * (xs ++ [x]).length) % t := by
        rw [hL', Nat.mod_add_mod]
      refine ConvState.mk.injEq .. ▸ ?_
      refine ⟨rfl, hbits, ?_⟩
      -- the returned groups
      have hqL : t * (L / t) ≤ L := Nat.mul_div_le L t
      have hcount : (f * (xs ++ [x]).length) / t = L / t + (L % t + f) / t := by
        rw [hL']
        conv_lhs => rw [← Nat.div_add_mod L t]
        rw [Nat.add_assoc, Nat.mul_add_div ht]
      unfold streamGroups
      rw [hcount, List.range_add, List.map_append, List.map_map]
      congr 1
      · -- old groups are unchanged
        apply List.map_congr_left
        intro j hj
        have hjq : j < L / t := List.mem_range.mp hj
        have hjL : t * (j + 1) ≤ L := by
          calc t * (j + 1) ≤ t * (L / t) := by
                apply Nat.mul_le_mul_left
                omega
            _ ≤ L := hqL
        have hshift : f * (xs ++ [x]).length - t * (j + 1) = (L - t * (j + 1)) + f := by
          rw [hL']; omega
        rw [hshift, hN', shiftRight_mul_add Nv x f _ hx]
      · -- newly emitted groups
        apply List.map_congr_left
        intro i hi
        simp only [Function.comp_apply]
        have hiq : i < (L % t + f) / t := List.mem_range.mp hi
        have hit : t * (i + 1) ≤ L % t + f := by
          calc t * (i + 1) ≤ t * ((L % t + f) / t) := by
                apply Nat.mul_le_mul_left
                omega
            _ = ((L % t + f) / t) * t := Nat.mul_comm ..
            _ ≤ L % t + f := Nat.div_mul_le_self ..
        have hLsplit : t * (L / t) + L % t = L := Nat.div_add_mod L t
        have hdist : t * (L / t + i + 1) = t * (L / t) + t * (i + 1) := by ring
        have hshift2 : f * (xs ++ [x]).length - t * (L / t + i + 1) =
            L % t + f - t * (i + 1) := by
          rw [hL', hdist]
          omega
        rw [hshift2]
        have hrt : L % t < t := Nat.mod_lt _ ht
        have hwin : (L % t + f - t * (i + 1)) + t ≤ f + t - 1 := by
          have : t * (i + 1) ≥ t := by
            calc t = t * 1 := by ring
              _ ≤ t * (i + 1) := by
                  apply Nat.mul_le_mul_left
                  omega
          omega
        exact mod_shiftRight_and _ _ _ _ hwin

/-- Masking a left shift to `t` bits keeps only the low `t - s` bits of the
shifted value. -/
lemma shiftLeft_and_mask (a s t : Nat) (hs : s ≤ t) :
    (a <<< s) &&& (2 ^ t - 1) = (a % 2 ^ (t - s)) <<< s := by
  apply Nat.eq_of_testBit_eq
  intro j
  simp only [Nat.testBit_and, Nat.testBit_shiftLeft, Nat.testBit_two_pow_sub_one,
    Nat.testBit_mod_two_pow]
  by_cases hj : s ≤ j
  · by_cases hjt : j < t
    · have : j - s < t - s := by omega
      simp [hj, hjt, this]
    · have : ¬ (j - s < t - s) := by omega
      simp [hj, hjt, this]
  · simp [hj]

/-- The pad/error expression of `convertBits` in stream terms: with
`acc = N % 2 ^ (f + t - 1)` and `bits = r < t ≤ f + t - 1`, the masked
shifted accumulator is the leftover bits shifted to width `t`. -/
lemma pad_expr_eq (Nv f t r : Nat) (hr : r < t) (hf : 0 < f) :
    ((Nv % 2 ^ (f + t - 1)) <<< (t - r)) &&& (2 ^ t - 1) =
      (Nv % 2 ^ r) <<< (t - r) := by
  rw [shiftLeft_and_mask _ _ _ (by omega)]
  congr 1
  have h1 : t - (t - r) = r := by omega
  rw [h1]
  apply Nat.mod_mod_of_dvd
  exact pow_dvd_pow 2 (by omega)

/-- Full characterization of `convertBits` with `pad = false`:
it errors exactly when the leftover-bit count reaches `fromBits` or the
leftover bits are non-zero, and otherwise returns the full groups. -/
theorem convertBits_false_spec (data : List Nat) (f t : Nat) (hf : 0 < f)
    (ht : 0 < t) (hd : ∀ v ∈ data, v < 2 ^ f) :
    convertBits data f t false =
      if f ≤ (f * data.length) % t ∨
          (streamVal f data % 2 ^ ((f * data.length) % t)) <<<
            (t - (f * data.length) % t) ≠ 0 then
        .error ConvErr.encodingPadding
      else
        .ok (streamGroups t (2 ^ t - 1) (streamVal f data) (f * data.length)) := by
  unfold convertBits
  simp only [Nat.one_shiftLeft]
  rw [convert_fold_inv f t hf ht data hd]
  simp only [Bool.false_eq_true, if_false]
  rw [pad_expr_eq (streamVal f data) f t ((f * data.length) % t)
    (Nat.mod_lt _ ht) hf]

/-- Full characterization of `convertBits` with `pad = true`: the full
groups, then—if bits are left over—one final group of the leftover bits
shifted to width `toBits`. -/
theorem convertBits_true_spec (data : List Nat) (f t : Nat) (hf : 0 < f)
    (ht : 0 < t) (hd : ∀ v ∈ data, v < 2 ^ f) :
    convertBits data f t true =
      .ok (streamGroups t (2 ^ t - 1) (streamVal f data) (f * data.length) ++
        (if 0 < (f * data.length) % t then
          [(streamVal f data % 2 ^ ((f * data.length) % t)) <<<
            (t - (f * data.length) % t)]
        else [])) := by
  unfold convertBits
  simp only [Nat.one_shiftLeft]
  rw [convert_fold_inv f t hf ht data hd]
  rw [pad_expr_eq (streamVal f data) f t ((f * data.length) % t)
    (Nat.mod_lt _ ht) hf]
  by_cases hr : 0 < (f * data.length) % t <;> simp [hr]

/-- C4: with `pad = false` and widths in `1..8`, repacking fails with the
encoding-padding error exactly when the leftover bit count reaches
`fromBits` or the leftover bits, shifted to `toBits` width, are non-zero;
otherwise it succeeds with the full groups. -/
theorem convertBits_c4 (data : List Nat) (f t : Nat)
    (hf1 : 1 ≤ f) (hf8 : f ≤ 8) (ht1 : 1 ≤ t) (ht8 : t ≤ 8)
    (hd : ∀ v ∈ data, v < 2 ^ f) :
    convertBits data f t false =
      if f ≤ (f * data.length) % t ∨
          (streamVal f data % 2 ^ ((f * data.length) % t)) <<<
            (t - (f * data.length) % t) ≠ 0 then
        .error ConvErr.encodingPadding
      else
        .ok (streamGroups t (2 ^ t - 1) (streamVal f data) (f * data.length)) :=
  convertBits_false_spec data f t (by omega) (by omega) hd

/-- Witness for C4 at concrete inputs: one failing (leftover bits non-zero)
and implicitly, via the `if`, the error value itself. -/
theorem convertBits_c4_witness :
    (1 ≤ 8 ∧ 8 ≤ 8 ∧ 1 ≤ 5 ∧ 5 ≤ 8 ∧ ∀ v ∈ [1], v < 2 ^ 8) ∧
      convertBits [1] 8 5 false =
        (if 8 ≤ (8 * [1].length) % 5 ∨
            (streamVal 8 [1] % 2 ^ ((8 * [1].length) % 5)) <<<
              (5 - (8 * [1].length) % 5) ≠ 0 then
          .error ConvErr.encodingPadding
        else
          .ok (streamGroups 5 (2 ^ 5 - 1) (streamVal 8 [1]) (8 * [1].length))) :=
  ⟨⟨by norm_num, by norm_num, by norm_num, by norm_num, by decide⟩,
    convertBits_c4 [1] 8 5 (by norm_num) (by norm_num) (by norm_num) (by norm_num)
      (by decide)⟩

lemma streamGroups_mem_lt (t N L : Nat) :
    ∀ v ∈ streamGroups t (2 ^ t - 1) N L, v < 2 ^ t := by
  intro v hv
  obtain ⟨j, _, rfl⟩ := List.mem_map.mp hv
  have h1 : (N >>> (L - t * (j + 1))) &&& (2 ^ t - 1) ≤ 2 ^ t - 1 := Nat.and_le_right
  have h2 : (0 : Nat) < 2 ^ t := Nat.two_pow_pos t
  omega

/-- Reading back the full `t`-bit groups of a length-`t*q + r` stream
recovers everything above the leftover bits. -/
lemma streamVal_groups_aux (t : Nat) (ht : 0 < t) : ∀ q N r, r < t →
    N < 2 ^ (t * q + r) →
    streamVal t ((List.range q).map
      (fun j => (N >>> (t * q + r - t * (j + 1))) &&& (2 ^ t - 1))) = N >>> r := by
  intro q
  induction q with
  | zero =>
      intro N r hr hN
      simp only [List.range_zero, List.map_nil]
      rw [shiftRight_eq_zero N r (by simpa using hN)]
      rfl
  | succ q ih =>
      intro N r hr hN
      rw [List.range_succ, List.map_append, List.map_singleton]
      have hlast : t * (q + 1) + r - t * (q + 1) = r := by omega
      have hgs : (List.range q).map
          (fun j => (N >>> (t * (q + 1) + r - t * (j + 1))) &&& (2 ^ t - 1)) =
          (List.range q).map
            (fun j => ((N >>> t) >>> (t * q + r - t * (j + 1))) &&& (2 ^ t - 1)) := by
        apply List.map_congr_left
        intro j hj
        have hjq : j < q := List.mem_range.mp hj
        congr 1
        rw [← Nat.shiftRight_add]
        congr 1
        have h1 : t * (j + 1) ≤ t * q := Nat.mul_le_mul_left t (by omega)
        have h2 : t * (q + 1) = t * q + t := by ring
        omega
      rw [hgs, streamVal_append]
      have hN' : N >>> t < 2 ^ (t * q + r) := by
        rw [Nat.shiftRight_eq_div_pow]
        apply Nat.div_lt_of_lt_mul
        have h2 : 2 ^ t * 2 ^ (t * q + r) = 2 ^ (t * (q + 1) + r) := by
          rw [← Nat.pow_add]
          congr 1
          ring
        rw [h2]
        exact hN
      rw [ih (N >>> t) r hr hN', hlast]
      rw [← Nat.shiftRight_add]
      have h3 : (0x1f : Nat) = 2 ^ 5 - 1 := by norm_num
      have h4 : (N >>> r) &&& (2 ^ t - 1) = (N >>> r) % 2 ^ t :=
        Nat.and_pow_two_sub_one_eq_mod _ _
      have h5 : (N >>> r) >>> t = (N >>> r) / 2 ^ t := Nat.shiftRight_eq_div_pow _ _
      have h6 : N >>> (t + r) = (N >>> r) >>> t := by
        rw [← Nat.shiftRight_add, Nat.add_comm]
      rw [h4, h6, h5, Nat.mul_comm ((N >>> r) / 2 ^ t) (2 ^ t)]
      exact Nat.div_add_mod (N >>> r) (2 ^ t)

/-- Reading the full `f`-bit groups of the stream of `data` gives back
`data` itself. -/
lemma streamGroups_streamVal (f : Nat) (hf : 0 < f) (data : List Nat)
    (hd : ∀ v ∈ data, v < 2 ^ f) :
    streamGroups f (2 ^ f - 1) (streamVal f data) (f * data.length) = data := by
  induction data using List.reverseRecOn with
  | nil => simp [streamGroups, streamVal]
  | append_singleton xs x ih =>
      have hd' : ∀ v ∈ xs, v < 2 ^ f := fun v hv => hd v (by simp [hv])
      have hx : x < 2 ^ f := hd x (by simp)
      unfold streamGroups
      have hlen : (xs ++ [x]).length = xs.length + 1 := by simp
      have hdiv : f * (xs ++ [x]).length / f = xs.length + 1 := by
        rw [hlen, Nat.mul_div_cancel_left _ hf]
      rw [hdiv, List.range_succ, List.map_append, List.map_singleton]
      have hL' : f * (xs ++ [x]).length = f * xs.length + f := by
        rw [hlen]; ring
      have hlast : f * (xs ++ [x]).length - f * (xs.length + 1) = 0 := by
        have h2 : f * (xs.length + 1) = f * xs.length + f := by ring
        rw [hL', h2]
        omega
      have hN' : streamVal f (xs ++ [x]) = streamVal f xs * 2 ^ f + x :=
        streamVal_append f xs x
      congr 1
      · -- leading groups give back xs
        have hgs : (List.range xs.length).map
            (fun j => (streamVal f (xs ++ [x]) >>>
              (f * (xs ++ [x]).length - f * (j + 1))) &&& (2 ^ f - 1)) =
            (List.range xs.length).map
              (fun j => (streamVal f xs >>>
                (f * xs.length - f * (j + 1))) &&& (2 ^ f - 1)) := by
          apply List.map_congr_left
          intro j hj
          have hjq : j < xs.length := List.mem_range.mp hj
          have hjL : f * (j + 1) ≤ f * xs.length := Nat.mul_le_mul_left f (by omega)
          have hshift : f * (xs ++ [x]).length - f * (j + 1) =
              (f * xs.length - f * (j + 1)) + f := by
            rw [hL']; omega
          rw [hshift, hN', shiftRight_mul_add _ _ _ _ hx]
        rw [hgs]
        have := ih hd'
        unfold streamGroups at this
        rw [Nat.mul_div_cancel_left _ hf] at this
        exact this
      · -- last group is x
        rw [hlast, Nat.shiftRight_zero, hN', Nat.and_pow_two_sub_one_eq_mod,
          Nat.mul_comm (streamVal f xs) (2 ^ f), Nat.mul_add_mod]
        rw [Nat.mod_eq_of_lt hx]

lemma streamGroups_length (t maxv N L : Nat) :
    (streamGroups t maxv N L).length = L / t := by
  simp [streamGroups]

/-- Reading back the full groups of a stream recovers everything above the
leftover bits. -/
lemma streamVal_streamGroups_eq (t N L : Nat) (ht : 0 < t) (hN : N < 2 ^ L) :
    streamVal t (streamGroups t (2 ^ t - 1) N L) = N >>> (L % t) := by
  have hL : t * (L / t) + L % t = L := Nat.div_add_mod L t
  have hmap : streamGroups t (2 ^ t - 1) N L =
      (List.range (L / t)).map
        (fun j => (N >>> (t * (L / t) + L % t - t * (j + 1))) &&& (2 ^ t - 1)) := by
    unfold streamGroups
    apply List.map_congr_left
    intro j hj
    rw [hL]
  rw [hmap, streamVal_groups_aux t ht (L / t) N (L % t) (Nat.mod_lt _ ht)
    (by rw [hL]; exact hN)]

/-- C2: repacking 8-bit bytes into 5-bit groups with padding and then
repacking the result back from 5 to 8 bits without padding succeeds and
reproduces the input exactly. -/
theorem convertBits_roundtrip (data : List Nat) (hd : ∀ v ∈ data, v < 256) :
    ∃ mid, convertBits data 8 5 true = .ok mid ∧
      convertBits mid 5 8 false = .ok data := by
  have hd8 : ∀ v ∈ data, v < 2 ^ 8 := by
    intro v hv
    have := hd v hv
    omega
  have hNlt : streamVal 8 data < 2 ^ (8 * data.length) := streamVal_lt 8 data hd8
  refine ⟨_, convertBits_true_spec data 8 5 (by norm_num) (by norm_num) hd8, ?_⟩
  -- decode the encoded groups back
  have hmid5 : ∀ v ∈ streamGroups 5 (2 ^ 5 - 1) (streamVal 8 data)
      (8 * data.length) ++
      (if 0 < (8 * data.length) % 5 then
        [(streamVal 8 data % 2 ^ ((8 * data.length) % 5)) <<<
          (5 - (8 * data.length) % 5)]
      else []), v < 2 ^ 5 := by
    intro v hv
    rcases List.mem_append.mp hv with h1 | h1
    · exact streamGroups_mem_lt 5 _ _ v h1
    · by_cases hr : 0 < (8 * data.length) % 5
      · rw [if_pos hr] at h1
        have hv' : v = (streamVal 8 data % 2 ^ ((8 * data.length) % 5)) <<<
            (5 - (8 * data.length) % 5) := by simpa using h1
        subst hv'
        rw [Nat.shiftLeft_eq]
        have h2 : streamVal 8 data % 2 ^ ((8 * data.length) % 5) <
            2 ^ ((8 * data.length) % 5) := Nat.mod_lt _ (Nat.two_pow_pos _)
        calc streamVal 8 data % 2 ^ ((8 * data.length) % 5) *
              2 ^ (5 - (8 * data.length) % 5)
            < 2 ^ ((8 * data.length) % 5) * 2 ^ (5 - (8 * data.length) % 5) :=
              Nat.mul_lt_mul_of_lt_of_le h2 (Nat.le_refl _) (Nat.two_pow_pos _)
          _ = 2 ^ 5 := by
              rw [← Nat.pow_add]
              congr 1
              omega
      · rw [if_neg hr] at h1
        simp at h1
  rw [convertBits_false_spec _ 5 8 (by norm_num) (by norm_num) hmid5]
  by_cases hr : 0 < (8 * data.length) % 5
  · -- padded case: one extra group carrying the leftover bits
    rw [if_pos hr]
    have hlen : (streamGroups 5 (2 ^ 5 - 1) (streamVal 8 data)
        (8 * data.length) ++
        [(streamVal 8 data % 2 ^ ((8 * data.length) % 5)) <<<
          (5 - (8 * data.length) % 5)]).length =
        (8 * data.length) / 5 + 1 := by
      rw [List.length_append, streamGroups_length, List.length_singleton]
    have hsv : streamVal 5 (streamGroups 5 (2 ^ 5 - 1) (streamVal 8 data)
        (8 * data.length) ++
        [(streamVal 8 data % 2 ^ ((8 * data.length) % 5)) <<<
          (5 - (8 * data.length) % 5)]) =
        streamVal 8 data * 2 ^ (5 - (8 * data.length) % 5) := by
      rw [streamVal_append,
        streamVal_streamGroups_eq 5 _ _ (by norm_num) hNlt]
      rw [Nat.shiftRight_eq_div_pow, Nat.shiftLeft_eq]
      have h25 : (2:Nat) ^ ((8 * data.length) % 5) *
          2 ^ (5 - (8 * data.length) % 5) = 2 ^ 5 := by
        rw [← Nat.pow_add]
        congr 1
        omega
      have hdm := Nat.div_add_mod (streamVal 8 data) (2 ^ ((8 * data.length) % 5))
      calc streamVal 8 data / 2 ^ ((8 * data.length) % 5) * 2 ^ 5 +
            streamVal 8 data % 2 ^ ((8 * data.length) % 5) *
              2 ^ (5 - (8 * data.length) % 5)
          = (2 ^ ((8 * data.length) % 5) *
              (streamVal 8 data / 2 ^ ((8 * data.length) % 5)) +
              streamVal 8 data % 2 ^ ((8 * data.length) % 5)) *
              2 ^ (5 - (8 * data.length) % 5) := by
            rw [← h25]
            ring
        _ = streamVal 8 data * 2 ^ (5 - (8 * data.length) % 5) := by rw [hdm]
    rw [hlen, hsv]
    have hL5 : 5 * ((8 * data.length) / 5 + 1) =
        8 * data.length + (5 - (8 * data.length) % 5) := by omega
    rw [hL5]
    have hr2 : (8 * data.length + (5 - (8 * data.length) % 5)) % 8 =
        5 - (8 * data.length) % 5 := by omega
    have hcond : ¬ (5 ≤ (8 * data.length + (5 - (8 * data.length) % 5)) % 8 ∨
        (streamVal 8 data * 2 ^ (5 - (8 * data.length) % 5) %
          2 ^ ((8 * data.length + (5 - (8 * data.length) % 5)) % 8)) <<<
          (8 - (8 * data.length + (5 - (8 * data.length) % 5)) % 8) ≠ 0) := by
      rw [hr2]
      push_neg
      constructor
      · omega
      · rw [Nat.mul_mod_left, Nat.zero_shiftLeft]
    rw [if_neg hcond]
    congr 1
    have hgroups : streamGroups 8 (2 ^ 8 - 1)
        (streamVal 8 data * 2 ^ (5 - (8 * data.length) % 5))
        (8 * data.length + (5 - (8 * data.length) % 5)) =
        streamGroups 8 (2 ^ 8 - 1) (streamVal 8 data) (8 * data.length) := by
      unfold streamGroups
      have hq : (8 * data.length + (5 - (8 * data.length) % 5)) / 8 =
          8 * data.length / 8 := by omega
      rw [hq]
      apply List.map_congr_left
      intro j hj
      have hj8 : j < 8 * data.length / 8 := List.mem_range.mp hj
      have hjL : 8 * (j + 1) ≤ 8 * data.length := by omega
      have hshift : 8 * data.length + (5 - (8 * data.length) % 5) - 8 * (j + 1) =
          (8 * data.length - 8 * (j + 1)) + (5 - (8 * data.length) % 5) := by
        omega
      rw [hshift]
      congr 1
      rw [← Nat.add_zero (streamVal 8 data * 2 ^ (5 - (8 * data.length) % 5))]
      rw [shiftRight_mul_add _ 0 _ _ (Nat.two_pow_pos _)]
    rw [hgroups]
    exact streamGroups_streamVal 8 (by norm_num) data hd8
  · -- no leftover bits: the groups decode directly
    rw [if_neg hr, List.append_nil]
    have h50 : (8 * data.length) % 5 = 0 := by omega
    have hlen : 5 * (streamGroups 5 (2 ^ 5 - 1) (streamVal 8 data)
        (8 * data.length)).length = 8 * data.length := by
      rw [streamGroups_length]
      omega
    have hsv : streamVal 5 (streamGroups 5 (2 ^ 5 - 1) (streamVal 8 data)
        (8 * data.length)) = streamVal 8 data := by
      rw [streamVal_streamGroups_eq 5 _ _ (by norm_num) hNlt, h50,
        Nat.shiftRight_zero]
    rw [hlen, hsv]
    have hcond : ¬ (5 ≤ (8 * data.length) % 8 ∨
        (streamVal 8 data % 2 ^ ((8 * data.length) % 8)) <<<
          (8 - (8 * data.length) % 8) ≠ 0) := by
      have h80 : (8 * data.length) % 8 = 0 := by omega
      rw [h80]
      push_neg
      constructor
      · omega
      · rw [Nat.pow_zero, Nat.mod_one, Nat.zero_shiftLeft]
    rw [if_neg hcond]
    congr 1
    exact streamGroups_streamVal 8 (by norm_num) data hd8

/-- Witness for C2 at a concrete byte sequence. -/
theorem convertBits_roundtrip_witness :
    (∀ v ∈ [0xff, 0, 0xab], v < 256) ∧
      ∃ mid, convertBits [0xff, 0, 0xab] 8 5 true = .ok mid ∧
        convertBits mid 5 8 false = .ok [0xff, 0, 0xab] :=
  ⟨by decide, convertBits_roundtrip [0xff, 0, 0xab] (by decide)⟩

/-! ## EOS account validation (`CheckEOSAccount` from `src/unnamed/part_002`
area, package `eosutil`). Go strings carry UTF-8 bytes: `len(s)` counts
bytes while `[]rune(s)` iterates characters, so the byte length is embedded
as the sum of the UTF-8 sizes of the characters. -/

/-- The `AccountChars` constant of the Go source. -/
def AccountChars : List Char := ".12345abcdefghijklmnopqrstuvwxyz".data

/-- Go `len(s)` for a string given as its characters. -/
def utf8Length (s : List Char) : Nat := (s.map Char.utf8Size).sum

/-- Go `CheckEOSAccount`: reject byte lengths over 12, then require every
character to appear in `AccountChars`. -/
def CheckEOSAccount (s : List Char) : Bool :=
  if utf8Length s > 12 then false
  else s.all (fun c => AccountChars.contains c)

lemma utf8Length_of_account (s : List Char) (h : ∀ c ∈ s, c ∈ AccountChars) :
    utf8Length s = s.length := by
  unfold utf8Length
  have haux : ∀ c ∈ AccountChars, c.utf8Size = 1 := by decide
  have hone : ∀ c ∈ s, c.utf8Size = 1 := fun c hc => haux c (h c hc)
  induction s with
  | nil => rfl
  | cons c cs ih =>
      rw [List.map_cons, List.sum_cons, hone c (by simp),
        ih (fun x hx => h x (by simp [hx])) (fun x hx => hone x (by simp [hx]))]
      simp [Nat.add_comm]

lemma length_le_utf8Length (s : List Char) : s.length ≤ utf8Length s := by
  unfold utf8Length
  induction s with
  | nil => simp
  | cons c cs ih =>
      rw [List.map_cons, List.sum_cons]
      have := c.utf8Size_pos
      simp only [List.length_cons]
      omega

/-- C9: the EOS account validator accepts exactly the strings of at most 12
characters drawn from `.12345abcdefghijklmnopqrstuvwxyz`. -/
theorem checkEOSAccount_iff (s : List Char) :
    CheckEOSAccount s = true ↔ (s.length ≤ 12 ∧ ∀ c ∈ s, c ∈ AccountChars) := by
  unfold CheckEOSAccount
  by_cases h12 : utf8Length s > 12
  · rw [if_pos h12]
    constructor
    · intro h
      exact absurd h (by simp)
    · rintro ⟨hl, hall⟩
      have := utf8Length_of_account s hall
      omega
  · rw [if_neg h12]
    rw [List.all_eq_true]
    constructor
    · intro h
      have hall : ∀ c ∈ s, c ∈ AccountChars := by
        intro c hc
        have := h c hc
        simpa [List.contains] using this
      exact ⟨by have := length_le_utf8Length s; omega, hall⟩
    · rintro ⟨_, hall⟩
      intro c hc
      have := hall c hc
      simpa [List.contains] using this

/-! ## Top-level dispatch (`CheckAddress` from `src/address.go`).
The per-chain validators that rely on code outside `src/` (base58, hashes,
external decoding packages) are taken as parameters; the EOS branch uses
the embedded `CheckEOSAccount` and the IOST branch embeds the inline
regular expression `^([a-z0-9_]{5,11})$` as an explicit full-match check. -/

structure ChainCheckers where
  btc : String → Bool → Bool
  bch : String → Bool → Bool
  ltc : String → Bool → Bool
  eth : String → Bool
  tron : String → Bool
  vds : String → Bool

/-- The inline IOST regular expression `^([a-z0-9_]{5,11})$` of
`src/address.go`, as a full-anchored match. -/
def iostMatch (s : String) : Bool :=
  decide (5 ≤ s.length) && decide (s.length ≤ 11) &&
    s.data.all (fun c =>
      (('a' ≤ c && c ≤ 'z') || ('0' ≤ c && c ≤ '9') || c == '_'))

/-- Go `CheckAddress`: dispatch on the chain identifier; unknown chains
fall into the `default:` branch, which returns `true`. -/
def CheckAddress (ck : ChainCheckers) (address chain : String) (main : Bool) :
    Bool :=
  if chain = "BTC" ∨ chain = "OMNI" then ck.btc address main
  else if chain = "BCH" then ck.bch address main
  else if chain = "LTC" then ck.ltc address main
  else if chain = "ETH" ∨ chain = "ETC" then ck.eth address
  else if chain = "EOS" then CheckEOSAccount address.data
  else if chain = "IOST" then iostMatch address
  else if chain = "TRON" then ck.tron address
  else if chain = "VDS" then ck.vds address
  else true

/-- C10: for every chain identifier outside the supported set,
`CheckAddress` returns `true` whatever the address and network flag. -/
theorem checkAddress_unknown_chain (ck : ChainCheckers) (address chain : String)
    (main : Bool)
    (h : chain ∉ ["BTC", "OMNI", "BCH", "LTC", "ETH", "ETC", "EOS", "IOST",
      "TRON", "VDS"]) :
    CheckAddress ck address chain main = true := by
  simp only [List.mem_cons, List.not_mem_nil, or_false] at h
  push_neg at h
  obtain ⟨h1, h2, h3, h4, h5, h6, h7, h8, h9, h10⟩ := h
  unfold CheckAddress
  simp [h1, h2, h3, h4, h5, h6, h7, h8, h9, h10]

/-- Witness for C10: a concrete unknown chain identifier validates any
string. -/
theorem checkAddress_unknown_chain_witness :
    ("DOGE" ∉ ["BTC", "OMNI", "BCH", "LTC", "ETH", "ETC", "EOS", "IOST",
      "TRON", "VDS"]) ∧
      CheckAddress ⟨fun _ _ => false, fun _ _ => false, fun _ _ => false,
        fun _ => false, fun _ => false, fun _ => false⟩ "xyz" "DOGE" true = true :=
  ⟨by decide, checkAddress_unknown_chain _ "xyz" "DOGE" true (by decide)⟩

/-! ## Address constructors (`NewBTCAddress` from `src/bitcoin.go`,
`NewBCHAddress` and `NewLTCAddress` from `src/unnamed/part_003`,
`NewTRONAddress` from `src/tron.go`, `NewETHAddress` from `src/eth.go`,
`NewVDSAddress` from `src/vds.go`).

`TRONAddress` materializes its textual form eagerly through
`tronAddrFromPub` (Keccak + SHA-256 + base58, outside `src/`), and
`VdsAddrFromPub` calls the external elliptic-curve parser; both are taken
as parameters. -/

inductive AddrErr where
  | publicKeyFormat
  | external
deriving DecidableEq

structure BTCAddress where
  net : Nat
  pubKey : List Nat
deriving DecidableEq

structure BCHAddress where
  net : Nat
  pre : List Char
  pubKey : List Nat
deriving DecidableEq

structure LTCAddress where
  net : Nat
  pubKey : List Nat
deriving DecidableEq

structure TRONAddress where
  pubKey : List Nat
  addr : List Char
deriving DecidableEq

structure ETHAddress where
  addr : List Char
  pubKey : List Nat
deriving DecidableEq

structure VDSAddress where
  addr : List Char
  pubKey : List Nat
deriving DecidableEq

/-- Go `NewBTCAddress`: reject keys that are not 65 bytes with tag 0x04. -/
def NewBTCAddress (pubKey : List Nat) (main : Bool) : Except AddrErr BTCAddress :=
  if pubKey.length ≠ 65 ∨ pubKey.headI ≠ 0x04 then .error .publicKeyFormat
  else .ok ⟨if main then 0x00 else 0x6f, pubKey⟩

/-- Go `NewBCHAddress`: same key check; nets 0x00/0x6f with their
human-readable prefixes. -/
def NewBCHAddress (pubKey : List Nat) (main : Bool) : Except AddrErr BCHAddress :=
  if pubKey.length ≠ 65 ∨ pubKey.headI ≠ 0x04 then .error .publicKeyFormat
  else if main then .ok ⟨0x00, "bitcoincash".data, pubKey⟩
  else .ok ⟨0x6f, "bchtest".data, pubKey⟩

/-- Go `NewLTCAddress`: no key validation at all. -/
def NewLTCAddress (pubKey : List Nat) (main : Bool) : Except AddrErr LTCAddress :=
  .ok ⟨if main then 0x30 else 0x6f, pubKey⟩

/-- Go `NewTRONAddress`: only the 65-byte length is checked; the leading
tag byte is not. The address text is materialized eagerly. -/
def NewTRONAddress (tronAddrFromPub : List Nat → List Char) (pubKey : List Nat) :
    Except AddrErr TRONAddress :=
  if pubKey.length ≠ 65 then .error .publicKeyFormat
  else .ok ⟨pubKey.drop 1, tronAddrFromPub pubKey⟩

/-- Go `NewETHAddress`: accepts any byte sequence without validation. -/
def NewETHAddress (pubKey : List Nat) : Except AddrErr ETHAddress :=
  .ok ⟨[], pubKey⟩

/-- Go `NewVDSAddress`: the 65-byte/0x04 check, then the external
derivation which may itself fail. Its failures are the error values of
`ecc.ParsePubKey`/`btcutil.NewAddressPubKey`, which are distinct Go error
values from the `ErrPublicKeyFormat` sentinel created by `errors.New` in
`src/address.go`; the external error channel is therefore a separate type,
surfaced as `AddrErr.external`. -/
def NewVDSAddress (vdsAddrFromPub : List Nat → Except Unit (List Char))
    (pubKey : List Nat) : Except AddrErr VDSAddress :=
  if pubKey.length ≠ 65 ∨ pubKey.headI ≠ 0x04 then .error .publicKeyFormat
  else
    match vdsAddrFromPub pubKey with
    | .error _ => .error .external
    | .ok addr => .ok ⟨addr, pubKey⟩

/-- C7 counterexample: the ETH constructor succeeds on the empty byte
sequence, although the claim says every constructor must fail with the
public-key-format error on inputs that are not 65 bytes with tag 0x04. -/
theorem newAddress_c7_counterexample :
    ¬ (([] : List Nat).length = 65 ∧ ([] : List Nat).headI = 0x04) ∧
      NewETHAddress [] = .ok ⟨[], []⟩ := by
  constructor
  · decide
  · rfl

/-- C7 amended: the BTC, BCH and VDS constructors fail with the
public-key-format error exactly on inputs that are not 65 bytes with
leading 0x04; the TRON constructor checks only the 65-byte length; the ETH
and LTC constructors never fail. -/
theorem newAddress_key_validation (pubKey : List Nat) (main : Bool)
    (tronAddrFromPub : List Nat → List Char)
    (vdsAddrFromPub : List Nat → Except Unit (List Char)) :
    (NewBTCAddress pubKey main = .error .publicKeyFormat ↔
      ¬ (pubKey.length = 65 ∧ pubKey.headI = 0x04)) ∧
    (NewBCHAddress pubKey main = .error .publicKeyFormat ↔
      ¬ (pubKey.length = 65 ∧ pubKey.headI = 0x04)) ∧
    (NewTRONAddress tronAddrFromPub pubKey = .error .publicKeyFormat ↔
      pubKey.length ≠ 65) ∧
    (∃ a, NewETHAddress pubKey = .ok a) ∧
    (∃ a, NewLTCAddress pubKey main = .ok a) ∧
    (NewVDSAddress vdsAddrFromPub pubKey = .error .publicKeyFormat ↔
      ¬ (pubKey.length = 65 ∧ pubKey.headI = 0x04)) := by
  refine ⟨?_, ?_, ?_, ⟨_, rfl⟩, ⟨_, rfl⟩, ?_⟩
  · unfold NewBTCAddress
    by_cases h : pubKey.length ≠ 65 ∨ pubKey.headI ≠ 0x04
    · rw [if_pos h]
      constructor
      · intro _; omega
      · intro _; rfl
    · rw [if_neg h]
      push_neg at h
      constructor
      · intro hcontra
        exact absurd hcontra (by simp)
      · intro hcontra
        exact absurd ⟨h.1, h.2⟩ hcontra
  · unfold NewBCHAddress
    by_cases h : pubKey.length ≠ 65 ∨ pubKey.headI ≠ 0x04
    · rw [if_pos h]
      constructor
      · intro _; omega
      · intro _; rfl
    · rw [if_neg h]
      push_neg at h
      constructor
      · intro hcontra
        by_cases hm : main <;> simp [hm] at hcontra
      · intro hcontra
        exact absurd ⟨h.1, h.2⟩ hcontra
  · unfold NewTRONAddress
    by_cases h : pubKey.length ≠ 65
    · rw [if_pos h]
      exact ⟨fun _ => h, fun _ => rfl⟩
    · rw [if_neg h]
      constructor
      · intro hcontra
        exact absurd hcontra (by simp)
      · intro hcontra
        exact absurd hcontra (by omega)
  · unfold NewVDSAddress
    by_cases h : pubKey.length ≠ 65 ∨ pubKey.headI ≠ 0x04
    · rw [if_pos h]
      constructor
      · intro _; omega
      · intro _; rfl
    · rw [if_neg h]
      push_neg at h
      constructor
      · intro hcontra
        cases hv : vdsAddrFromPub pubKey with
        | error e =>
            rw [hv] at hcontra
            simp at hcontra
        | ok a =>
            rw [hv] at hcontra
            simp at hcontra
      · intro hcontra
        exact absurd ⟨h.1, h.2⟩ hcontra

/-! ## ETH case-checksummed address text (`ETHAddress.String` from
`src/eth.go`).

The Keccak-256 hash (`golang.org/x/crypto/sha3`, outside `src/`) is a
parameter. `hex.EncodeToString` produces the lowercase hex digits of each
byte, high nibble first; it is embedded as `hexEncode` over the nibble
stream. The Go loop indexes `check[i]` for `i < len(addrBytes)`;
since Keccak-256 digests are 32 bytes, `check` has 64 digits against 40,
so the loop is the `zipWith` of the two lists. -/

/-- The two nibbles of every byte, high first (the digit stream of
`hex.EncodeToString`). -/
def nibblesOf (l : List Nat) : List Nat := l.flatMap (fun b => [b / 16, b % 16])

/-- Lowercase hex digit of a nibble, as its ASCII byte. -/
def hexDigit (n : Nat) : Nat := if n < 10 then 48 + n else 87 + n

/-- Modelled from the spec: `hex.EncodeToString` — the lowercase hex string
of a byte sequence, as ASCII bytes. -/
def hexEncode (bs : List Nat) : List Nat := (nibblesOf bs).map hexDigit

/-- Go `ETHAddress.String`: hash the coordinate bytes, hex the last 20
digest bytes, hash that hex string, and uppercase (`-= 0x20`) every
character `≥ 'a'` whose check character is `≥ '8'`; prepend `"0x"`. -/
def ethAddressString (keccak : List Nat → List Nat) (pubKey : List Nat) :
    List Nat :=
  let b := keccak (pubKey.drop 1)
  let addrBytes := hexEncode (b.drop 12)
  let check := hexEncode (keccak addrBytes)
  0x30 :: 0x78 ::
    List.zipWith (fun c k => if 56 ≤ k ∧ 97 ≤ c then c - 0x20 else c)
      addrBytes check

/-- The case rule exactly as the specification words it: a character is
uppercased iff it is alphabetic (a lowercase hex letter) and the
corresponding nibble of the digest is at least 8. -/
def ethAddressStringSpec (keccak : List Nat → List Nat) (pubKey : List Nat) :
    List Nat :=
  let low := hexEncode ((keccak (pubKey.drop 1)).drop 12)
  0x30 :: 0x78 ::
    List.zipWith (fun c nb => if (97 ≤ c ∧ c ≤ 102) ∧ 8 ≤ nb then c - 0x20 else c)
      low (nibblesOf (keccak low))

lemma zipWith_congr_mem {α β γ : Type} (f g : α → β → γ) :
    ∀ (l₁ : List α) (l₂ : List β),
      (∀ a ∈ l₁, ∀ b ∈ l₂, f a b = g a b) →
      List.zipWith f l₁ l₂ = List.zipWith g l₁ l₂ := by
  intro l₁
  induction l₁ with
  | nil => intro l₂ _; rfl
  | cons a l₁ ih =>
      intro l₂ h
      cases l₂ with
      | nil => rfl
      | cons b l₂ =>
          rw [List.zipWith_cons_cons, List.zipWith_cons_cons,
            h a (by simp) b (by simp),
            ih l₂ (fun x hx y hy => h x (by simp [hx]) y (by simp [hy]))]

lemma nibblesOf_mem_lt (l : List Nat) (hl : ∀ b ∈ l, b < 256) :
    ∀ nb ∈ nibblesOf l, nb < 16 := by
  intro nb hnb
  unfold nibblesOf at hnb
  obtain ⟨b, hb, hnb'⟩ := List.mem_flatMap.mp hnb
  have hb256 := hl b hb
  have h2 : nb = b / 16 ∨ nb = b % 16 := by simpa using hnb'
  rcases h2 with h | h <;> omega

lemma hexEncode_mem (l : List Nat) (hl : ∀ b ∈ l, b < 256) :
    ∀ c ∈ hexEncode l, (48 ≤ c ∧ c ≤ 57) ∨ (97 ≤ c ∧ c ≤ 102) := by
  intro c hc
  obtain ⟨nb, hnb, rfl⟩ := List.mem_map.mp hc
  have h16 := nibblesOf_mem_lt l hl nb hnb
  unfold hexDigit
  by_cases h : nb < 10
  · rw [if_pos h]; omega
  · rw [if_neg h]; omega

/-- C8: for every key, the derived address is `"0x"` followed by the
lowercase hex digits of the 20-byte payload in which a character is
uppercased iff it is alphabetic and the corresponding digest nibble is at
least 8 (and, with a 32-byte digest, there are exactly 40 of them, with no
checksum bytes appended). -/
theorem ethAddressString_case_rule (keccak : List Nat → List Nat)
    (pubKey : List Nat) (hlen : ∀ l, (keccak l).length = 32)
    (hbyte : ∀ l, ∀ b ∈ keccak l, b < 256) :
    ethAddressString keccak pubKey = ethAddressStringSpec keccak pubKey ∧
      (ethAddressString keccak pubKey).length = 42 := by
  have hmem : ∀ b ∈ (keccak (pubKey.drop 1)).drop 12, b < 256 :=
    fun b hb => hbyte _ b (List.mem_of_mem_drop hb)
  have hzip : List.zipWith
      (fun c k => if 56 ≤ k ∧ 97 ≤ c then c - 0x20 else c)
      (hexEncode ((keccak (pubKey.drop 1)).drop 12))
      (hexEncode (keccak (hexEncode ((keccak (pubKey.drop 1)).drop 12)))) =
      List.zipWith
        (fun c nb => if (97 ≤ c ∧ c ≤ 102) ∧ 8 ≤ nb then c - 0x20 else c)
        (hexEncode ((keccak (pubKey.drop 1)).drop 12))
        (nibblesOf (keccak (hexEncode ((keccak (pubKey.drop 1)).drop 12)))) := by
    simp only [hexEncode]
    rw [List.zipWith_map_right]
    apply zipWith_congr_mem
    intro c hc nb hnb
    have hhex := hexEncode_mem _ hmem c hc
    have h16 := nibblesOf_mem_lt _ (hbyte _) nb hnb
    have hdig : (56 ≤ hexDigit nb) = (8 ≤ nb) := by
      unfold hexDigit
      by_cases h : nb < 10
      · rw [if_pos h]
        apply propext
        omega
      · rw [if_neg h]
        apply propext
        omega
    show (if 56 ≤ hexDigit nb ∧ 97 ≤ c then c - 0x20 else c) =
      (if (97 ≤ c ∧ c ≤ 102) ∧ 8 ≤ nb then c - 0x20 else c)
    have hcond : (56 ≤ hexDigit nb ∧ 97 ≤ c) ↔ ((97 ≤ c ∧ c ≤ 102) ∧ 8 ≤ nb) := by
      rw [hdig]
      constructor
      · intro hpos
        exact ⟨⟨hpos.2, by omega⟩, hpos.1⟩
      · intro hpos
        exact ⟨hpos.2, hpos.1.1⟩
    exact if_congr hcond rfl rfl
  have hnl : ∀ l : List Nat, (nibblesOf l).length = 2 * l.length := by
    intro l
    induction l with
    | nil => rfl
    | cons b bs ih =>
        unfold nibblesOf at ih ⊢
        rw [List.flatMap_cons, List.length_append, ih]
        simp only [List.length_cons, List.length_nil]
        omega
  constructor
  · simp only [ethAddressString, ethAddressStringSpec]
    rw [hzip]
  · simp only [ethAddressString, List.length_cons, List.length_zipWith]
    simp only [hexEncode, List.length_map]
    rw [hnl, hnl, List.length_drop]
    simp only [hlen]
    norm_num

/-- Witness for C8 with a concrete (constant) digest function. -/
theorem ethAddressString_case_rule_witness :
    ((∀ l : List Nat, ((fun _ => List.replicate 32 7) l : List Nat).length = 32) ∧
      (∀ l : List Nat, ∀ b ∈ ((fun _ => List.replicate 32 7) l : List Nat), b < 256)) ∧
      (ethAddressString (fun _ => List.replicate 32 7) [4, 9] =
        ethAddressStringSpec (fun _ => List.replicate 32 7) [4, 9] ∧
        (ethAddressString (fun _ => List.replicate 32 7) [4, 9]).length = 42) :=
  ⟨⟨fun _ => by simp, fun _ b hb => by
      have := List.eq_of_mem_replicate hb
      omega⟩,
    ethAddressString_case_rule (fun _ => List.replicate 32 7) [4, 9]
      (fun _ => by simp) (fun _ b hb => by
        have := List.eq_of_mem_replicate hb
        omega)⟩

/-! ## BCH address text (`BCHAddress.String` from `src/unnamed/part_003`,
delegating to `BTCAddress.String` from `src/bitcoin.go`).

`BTCAddress.String` computes `base58.CheckEncode(RIPEMD160(SHA256(pub)),
netByte)`. The two hashes are external cryptographic collaborators and the
`base58` package of this repository is not under `src/`, so the hash is a
parameter and base58 is modelled from the spec: "treats the byte sequence
as a big-endian unsigned integer, repeatedly divides by 58, maps
remainders through the 58-character alphabet, and prepends one
alphabet-leading character for every leading zero byte"; CheckEncode
prepends the version byte and appends the 4-byte double-SHA-256 checksum
(the checksum is abstract here as well). -/

/-- Modelled from the spec: the Base58 alphabet (digits and letters
excluding 0, O, I, l); its leading character is `'1'`. -/
def base58Alphabet : List Char :=
  "123456789ABCDEFGHJKLMNPQRSTUVWXYZabcdefghijkmnopqrstuvwxyz".data

/-- The byte sequence as a big-endian unsigned integer. -/
def bytesToNat (bs : List Nat) : Nat := bs.foldl (fun n b => n * 256 + b) 0

/-- Modelled from the spec: base-58 digit expansion of a big integer
(empty for zero; leading zero bytes are handled separately). -/
def base58Digits (n : Nat) : List Char :=
  if _h : n = 0 then []
  else base58Digits (n / 58) ++ [base58Alphabet.getD (n % 58) '1']
termination_by n
decreasing_by exact Nat.div_lt_self (Nat.pos_of_ne_zero _h) (by norm_num)

/-- Modelled from the spec: `base58.Encode` — one `'1'` per leading zero
byte, then the base-58 digits of the big-endian integer value. -/
def base58Encode (bs : List Nat) : List Char :=
  ((bs.takeWhile (fun b => b == 0)).map (fun _ => '1')) ++
    base58Digits (bytesToNat bs)

/-- Modelled from the spec: `base58.CheckEncode` — version byte, payload,
then the 4-byte double-SHA-256 checksum (abstract), Base58-encoded. -/
def base58CheckEncode (csum : List Nat → List Nat) (input : List Nat)
    (version : Nat) : List Char :=
  base58Encode ((version :: input) ++ csum (version :: input))

/-- Go `BTCAddress.String`: Base58Check of the RIPEMD160-of-SHA256 hash of
the serialized key under the net's version byte (the hash is the abstract
`hash160` parameter). -/
def btcAddressString (hash160 : List Nat → List Nat)
    (csum : List Nat → List Nat) (net : Nat) (pubKey : List Nat) : List Char :=
  base58CheckEncode csum (hash160 pubKey) net

/-- Go `BCHAddress.String`: builds a `BTCAddress` with the BCH net byte and
returns *its* textual form — the Base58Check legacy string. -/
def bchAddressString (hash160 : List Nat → List Nat)
    (csum : List Nat → List Nat) (main : Bool) (pubKey : List Nat) : List Char :=
  btcAddressString hash160 csum (if main then 0x00 else 0x6f) pubKey

/-- The 65-byte public key of the first `TestBCHAddress` vector in
`src/bch_test.go`. -/
def bchTestPubKey : List Nat :=
  [0x04, 0x78, 0x14, 0x04, 0x9c, 0xd3, 0x23, 0xb2, 0xf7, 0x07, 0x4c, 0x94,
   0xed, 0xc0, 0xf9, 0x61, 0xdb, 0x62, 0xbe, 0x35, 0x68, 0x7c, 0x24, 0x24,
   0xb2, 0xad, 0x29, 0xf7, 0xf2, 0x83, 0x7e, 0x03, 0x95, 0xe8, 0xeb, 0xbe,
   0xe0, 0x4f, 0x81, 0x98, 0xa9, 0x1c, 0xd9, 0xc8, 0xac, 0xbd, 0x97, 0xaa,
   0xd7, 0x68, 0x51, 0x95, 0x7f, 0x3e, 0x63, 0x62, 0xf4, 0xdd, 0x41, 0x92,
   0xf3, 0x43, 0x1a, 0x71, 0xfb]

lemma base58Encode_zero_head (l : List Nat) :
    ∃ rest, base58Encode (0 :: l) = '1' :: rest := by
  unfold base58Encode
  rw [List.takeWhile_cons]
  simp only [beq_self_eq_true, if_true]
  rw [List.map_cons, List.cons_append]
  exact ⟨_, rfl⟩

/-- C6: whatever the hash-160 and checksum collaborators return, the
main-net BCH address object's textual form is a Base58Check string whose
version byte 0x00 makes it start with `'1'` — it can never be the
`bitcoincash:`-prefixed CashAddr string the repository's own test
`TestBCHAddress` expects for this key. -/
theorem bchAddressString_not_cashaddr (hash160 csum : List Nat → List Nat) :
    bchAddressString hash160 csum true bchTestPubKey ≠
      "bitcoincash:qp4qttt9er93g0qwqtemzyw96d7p5jc25q4thz52r4".data := by
  intro heq
  unfold bchAddressString btcAddressString base58CheckEncode at heq
  rw [show (if true = true then 0x00 else 0x6f : Nat) = 0 from rfl,
    List.cons_append] at heq
  obtain ⟨rest, hrest⟩ :=
    base58Encode_zero_head (hash160 bchTestPubKey ++
      csum (0 :: hash160 bchTestPubKey))
  rw [hrest] at heq
  have hhead := congrArg List.head? heq
  simp only [List.head?_cons] at hhead
  exact absurd (Option.some.inj hhead) (by decide)

/-! ## BCH address validation (`DecodeAddress`, `checkDecodeCashAddress`,
`DecodeCashAddress`, `CharsetRev` from `src/util/bchutil/bchutil.go`;
registered network IDs from `src/util/bchutil/chaincfg/params.go`).

Go strings are byte sequences here (`List Nat`). Two collaborators live
outside `src/` and are parameters: `base58.CheckDecode` (the legacy
Base58Check decoder, whose checksum failure is distinguished from its
other failures exactly as the Go code distinguishes `base58.ErrChecksum`),
and the serialized-public-key branch taken for 130/66-character strings
(`hex.DecodeString` + `bchec.ParsePubKey`). -/

deriving instance DecidableEq for Except

inductive DecodeErr where
  | unknownNetworkParams
  | invalidLengthAddress
  | checksumMismatch
  | unknownAddressType
  | addressCollision
  | decodedUnknownSize
  | incorrectDataLength
  | encodingPadding
  | numbersInPre
  | separatorFirst
  | unexpectedChar
  | missingPre
  | mixedCase
  | invalidChar
  | pkHashWrongLength
  | unknownFormat
  | externalFailure
deriving DecidableEq

inductive CashAddrType where
  | p2pkh
  | p2sh
deriving DecidableEq

inductive GoAddress where
  | pubKeyHash (hash : List Nat) (pre : List Nat)
  | pubKey (serialized : List Nat) (pubKeyHashID : Nat)
  | legacyPubKeyHash (hash : List Nat) (netID : Nat)
  | legacyScriptHash (hash : List Nat) (netID : Nat)
deriving DecidableEq

inductive BCHNetParams where
  | mainNet
  | testNet3
  | regressionNet
  | simNet
deriving DecidableEq

/-- ASCII bytes of a string literal. -/
def strBytes (s : String) : List Nat := s.data.map Char.toNat

/-- The `Prefixes` map of `src/util/bchutil/bchutil.go`, as bytes. -/
def netPre : BCHNetParams → List Nat
  | .mainNet => strBytes "bitcoincash"
  | .testNet3 => strBytes "bchtest"
  | .regressionNet => strBytes "bchreg"
  | .simNet => strBytes "bchsim"

/-- The `CharsetRev` table of the Go source, verbatim. -/
def CharsetRev : List Int :=
  [-1, -1, -1, -1, -1, -1, -1, -1, -1, -1, -1, -1, -1, -1, -1, -1, -1, -1, -1,
   -1, -1, -1, -1, -1, -1, -1, -1, -1, -1, -1, -1, -1, -1, -1, -1, -1, -1, -1,
   -1, -1, -1, -1, -1, -1, -1, -1, -1, -1, 15, -1, 10, 17, 21, 20, 26, 30, 7,
   5, -1, -1, -1, -1, -1, -1, -1, 29, -1, 24, 13, 25, 9, 8, 23, -1, 18, 22,
   31, 27, 19, -1, 1, 0, 3, 16, 11, 28, 12, 14, 6, 4, 2, -1, -1, -1, -1,
   -1, -1, 29, -1, 24, 13, 25, 9, 8, 23, -1, 18, 22, 31, 27, 19, -1, 1, 0,
   3, 16, 11, 28, 12, 14, 6, 4, 2, -1, -1, -1, -1, -1]

/-- Go `lowerCase`: ASCII lower-casing by OR-ing 0x20. -/
def lowerCaseByte (c : Nat) : Nat := c ||| 0x20

/-- The sanity-scanning loop of `DecodeCashAddress`: character classes,
no digits before the separator, exactly one separator not in first
position; tracks the lower/upper flags and the separator position. -/
def scanPre : List Nat → Nat → Bool → Bool → Nat →
    Except DecodeErr (Bool × Bool × Nat)
  | [], _, lower, upper, preSize => .ok (lower, upper, preSize)
  | c :: rest, i, lower, upper, preSize =>
    if 97 ≤ c ∧ c ≤ 122 then scanPre rest (i + 1) true upper preSize
    else if 65 ≤ c ∧ c ≤ 90 then scanPre rest (i + 1) lower true preSize
    else if 48 ≤ c ∧ c ≤ 57 then
      if preSize = 0 then .error .numbersInPre
      else scanPre rest (i + 1) lower upper preSize
    else if c = 58 then
      if i = 0 ∨ preSize ≠ 0 then .error .separatorFirst
      else scanPre rest (i + 1) lower upper i
    else .error .unexpectedChar

/-- Go `DecodeCashAddress`: scan, demand a prefix and consistent case,
lower-case the prefix, map the data part through `CharsetRev`, verify the
checksum, and strip the eight checksum groups. -/
def DecodeCashAddress (str : List Nat) :
    Except DecodeErr (List Nat × List Nat) :=
  match scanPre str 0 false false 0 with
  | .error e => .error e
  | .ok (lower, upper, preSize) =>
    if preSize = 0 then .error .missingPre
    else if upper ∧ lower then .error .mixedCase
    else
      let pre := (str.take preSize).map lowerCaseByte
      let rawValues := str.drop (preSize + 1)
      if rawValues.any (fun c => 127 < c || CharsetRev.getD c (-1) == -1) then
        .error .invalidChar
      else
        let values := rawValues.map (fun c => (CharsetRev.getD c (-1)).toNat)
        if verifyChecksum pre values then
          .ok (pre, values.take (values.length - 8))
        else .error .checksumMismatch

/-- Go `checkDecodeCashAddress`: decode, regroup 5→8 bits unpadded, demand
21 bytes, and read the version byte (the `switch` leaves the zero-valued
pay-to-pubkey-hash type for unknown version bytes). -/
def checkDecodeCashAddress (input : List Nat) :
    Except DecodeErr (List Nat × CashAddrType) :=
  match DecodeCashAddress input with
  | .error e => .error e
  | .ok (_, data5) =>
    match convertBits data5 5 8 false with
    | .error _ => .error .encodingPadding
    | .ok data =>
      if data.length ≠ 21 then .error .incorrectDataLength
      else
        let t := if data.headI = 0x00 then CashAddrType.p2pkh
          else if data.headI = 0x08 then CashAddrType.p2sh
          else CashAddrType.p2pkh
        .ok (data.drop 1, t)

/-- Go `newAddressPubKeyHash` (the prefix lookup always succeeds for the
four registered nets). -/
def newAddressPubKeyHash (pkHash : List Nat) (net : BCHNetParams) :
    Except DecodeErr GoAddress :=
  if pkHash.length ≠ 20 then .error .pkHashWrongLength
  else .ok (.pubKeyHash pkHash (netPre net))

/-- `chaincfg.IsPubKeyHashAddrID`: the IDs registered by the four nets
(0x00 main, 0x6f testnet3/regression, 0x3f simnet). -/
def isPubKeyHashAddrID (id : Nat) : Bool :=
  id = 0x00 || id = 0x6f || id = 0x3f

/-- `chaincfg.IsScriptHashAddrID`: 0x05 main, 0xc4 testnet3/regression,
0x7b simnet. -/
def isScriptHashAddrID (id : Nat) : Bool :=
  id = 0x05 || id = 0xc4 || id = 0x7b

/-- The error classes of the external `base58.CheckDecode`: a checksum
failure (`base58.ErrChecksum`) or anything else. -/
inductive LegacyErr where
  | checksum
  | other
deriving DecidableEq

/-- The legacy Base58Check arm of `DecodeAddress` (everything after the
`base58.CheckDecode` call, which is the `ld` parameter). -/
def legacyDecodeBranch (ld : List Nat → Except LegacyErr (List Nat × Nat))
    (addr : List Nat) : Except DecodeErr GoAddress :=
  match ld addr with
  | .error .checksum => .error .checksumMismatch
  | .error .other => .error .unknownFormat
  | .ok (decoded, netID) =>
    if decoded.length = 20 then
      if isPubKeyHashAddrID netID ∧ isScriptHashAddrID netID then
        .error .addressCollision
      else if isPubKeyHashAddrID netID then
        if decoded.length ≠ 20 then .error .pkHashWrongLength
        else .ok (.legacyPubKeyHash decoded netID)
      else if isScriptHashAddrID netID then
        if decoded.length ≠ 20 then .error .pkHashWrongLength
        else .ok (.legacyScriptHash decoded netID)
      else .error .unknownAddressType
    else .error .decodedUnknownSize

/-- The prefix-completion step of `DecodeAddress`. -/
def addrWithPre (addr : List Nat) (net : BCHNetParams) : List Nat :=
  if addr.take ((netPre net).length + 1) ≠ netPre net ++ [58] then
    netPre net ++ [58] ++ addr
  else addr

/-- Go `DecodeAddress`: try the CashAddr decode first; return a checksum
mismatch immediately; on other failures try the serialized-public-key
branch (130/66 characters, the `pb` parameter) and then the legacy
Base58Check branch. -/
def DecodeAddress
    (pb : List Nat → BCHNetParams → Except DecodeErr GoAddress)
    (ld : List Nat → Except LegacyErr (List Nat × Nat))
    (addr : List Nat) (defaultNet : BCHNetParams) :
    Except DecodeErr GoAddress :=
  if addr.length < (netPre defaultNet).length + 2 then
    .error .invalidLengthAddress
  else
    match checkDecodeCashAddress (addrWithPre addr defaultNet) with
    | .ok (decoded, typ) =>
      if decoded.length = 20 then
        match typ with
        | .p2pkh => newAddressPubKeyHash decoded defaultNet
        | _ => .error .unknownAddressType
      else .error .decodedUnknownSize
    | .error e =>
      if e = .checksumMismatch then .error .checksumMismatch
      else if addr.length = 130 ∨ addr.length = 66 then pb addr defaultNet
      else legacyDecodeBranch ld addr

set_option maxRecDepth 100000

/-- C5 counterexample: a charset-valid CashAddr string with a bad checksum
(the corrupted `TestCheckBCHAddress` vector). Even with a legacy decoder
that would accept the string, `DecodeAddress` returns the checksum
mismatch immediately instead of falling through to the legacy
Base58Check decode as the claim states. -/
theorem decodeAddress_c5_counterexample :
    DecodeAddress (fun _ _ => .error .externalFailure)
        (fun _ => .ok (List.replicate 20 0, 0))
        (strBytes "qpcenuhjnwk0xw4st4x0pyn69vmra29nnvghrpm8jh")
        BCHNetParams.mainNet =
      .error .checksumMismatch ∧
    legacyDecodeBranch (fun _ => .ok (List.replicate 20 0, 0))
        (strBytes "qpcenuhjnwk0xw4st4x0pyn69vmra29nnvghrpm8jh") =
      .ok (.legacyPubKeyHash (List.replicate 20 0) 0) := by
  constructor
  · decide
  · decide

/-- C5 amended: the CashAddr decode is attempted first; a checksum
mismatch is returned immediately, without attempting the legacy decode;
every *other* CashAddr failure falls through (past the 130/66-character
serialized-public-key branch) to the legacy Base58Check decode. -/
theorem decodeAddress_c5_amended
    (pb : List Nat → BCHNetParams → Except DecodeErr GoAddress)
    (ld : List Nat → Except LegacyErr (List Nat × Nat))
    (addr : List Nat) (net : BCHNetParams)
    (hlen : (netPre net).length + 2 ≤ addr.length) :
    (checkDecodeCashAddress (addrWithPre addr net) = .error .checksumMismatch →
      DecodeAddress pb ld addr net = .error .checksumMismatch) ∧
    (∀ e, checkDecodeCashAddress (addrWithPre addr net) = .error e →
      e ≠ .checksumMismatch → addr.length ≠ 130 → addr.length ≠ 66 →
      DecodeAddress pb ld addr net = legacyDecodeBranch ld addr) := by
  constructor
  · intro hc
    unfold DecodeAddress
    rw [if_neg (by omega), hc]
    simp
  · intro e hc hne h130 h66
    unfold DecodeAddress
    rw [if_neg (by omega), hc]
    simp [hne, h130, h66]

/-- Witness for the amended C5 theorem: a legacy address string (its mixed
case makes the CashAddr decode fail with a non-checksum error) falls
through to the legacy branch. -/
theorem decodeAddress_c5_amended_witness :
    ((netPre BCHNetParams.mainNet).length + 2 ≤
      (strBytes "1BMfnF2h2absXr4JjNMzFeB1XP97NnNXfs").length) ∧
      DecodeAddress (fun _ _ => .error .externalFailure)
          (fun _ => .ok (List.replicate 20 0, 0))
          (strBytes "1BMfnF2h2absXr4JjNMzFeB1XP97NnNXfs") BCHNetParams.mainNet =
        legacyDecodeBranch (fun _ => .ok (List.replicate 20 0, 0))
          (strBytes "1BMfnF2h2absXr4JjNMzFeB1XP97NnNXfs") :=
  ⟨by decide,
    (decodeAddress_c5_amended (fun _ _ => .error .externalFailure)
        (fun _ => .ok (List.replicate 20 0, 0))
        (strBytes "1BMfnF2h2absXr4JjNMzFeB1XP97NnNXfs") BCHNetParams.mainNet
        (by decide)).2
      DecodeErr.mixedCase (by decide) (by decide) (by decide) (by decide)⟩
